import Mathlib

/-!
Verification development for the `mkb_scrape` scraper
(`src/mkb_scrape/scraper.py`).  The Python functions are shallowly
embedded as executable Lean definitions over `String` / `List Char`;
machinery supplied by the Python standard library (`html.unescape`,
`str.lower`, `urllib.parse`) is modelled at the documented boundary.
-/

namespace MkbScrape

/-! ## Character classes used by the scraper's regular expressions -/

/-- Membership in the regex class `[A-Z]` (code points 65–90). -/
def isUpperAZ (c : Char) : Bool := 65 ≤ c.toNat && c.toNat ≤ 90

/-- Membership in the regex class `\d` (code points 48–57; the scraper only
ever meets ASCII digits). -/
def isDigit09 (c : Char) : Bool := 48 ≤ c.toNat && c.toNat ≤ 57

/-- Membership in the regex class `[0-9A-Z]` (code suffix characters). -/
def isSuffixChar (c : Char) : Bool := isDigit09 c || isUpperAZ c

/-- Model of Python's `\s` / `str.strip()` whitespace on the character set the
scraper meets: space, tab, newline, carriage return, vertical tab, form feed. -/
def isPySpace (c : Char) : Bool :=
  c = ' ' || c = '\t' || c = '\n' || c = '\r' || c = '\x0b' || c = '\x0c'

/-- Model of Python's `str.lower` on a single character, restricted to ASCII
plus the non-ASCII letters this development evaluates it on ('Š', 'Ž', 'Č',
'Ć', 'Đ' and 'Å', which occurs in the scraper's mojibake literal). -/
def pyLowerChar (c : Char) : Char :=
  if c = 'Š' then 'š' else if c = 'Ž' then 'ž' else if c = 'Č' then 'č'
  else if c = 'Ć' then 'ć' else if c = 'Đ' then 'đ'
  else if c = 'Å' then 'å'
  else c.toLower

/-- Model of Python's `str.lower` (character-wise on this character set). -/
def pyLower (s : String) : String := ⟨s.data.map pyLowerChar⟩

/-- Python's `str.strip()` on a character list: drop whitespace at both ends. -/
def pyStripList (l : List Char) : List Char :=
  ((l.dropWhile isPySpace).reverse.dropWhile isPySpace).reverse

/-- Python's `str.strip()`. -/
def pyStrip (s : String) : String := ⟨pyStripList s.data⟩

/-- Python's `str.rstrip("/")`: drop every trailing `'/'`. -/
def rstripSlashes (s : String) : String :=
  ⟨(s.data.reverse.dropWhile (fun c => c = '/')).reverse⟩

/-- The substitution `re.sub(r"\s+", " ", ·)`: every maximal whitespace run
becomes a single space.  The flag records whether the previous character was
part of a whitespace run. -/
def collapseWsAux : Bool → List Char → List Char
  | _, [] => []
  | prevWs, c :: rest =>
    if isPySpace c then
      (if prevWs then [] else [' ']) ++ collapseWsAux true rest
    else c :: collapseWsAux false rest

/-- Model of Python stdlib `html.unescape` restricted to the five standard
named character references; all other text (in particular every string this
development evaluates, none of which contains `&`) passes through unchanged. -/
def unescapeAux : Nat → List Char → List Char
  | 0, l => l
  | _ + 1, [] => []
  | fuel + 1, '&' :: rest =>
    if rest.take 4 = ['a', 'm', 'p', ';'] then '&' :: unescapeAux fuel (rest.drop 4)
    else if rest.take 3 = ['l', 't', ';'] then '<' :: unescapeAux fuel (rest.drop 3)
    else if rest.take 3 = ['g', 't', ';'] then '>' :: unescapeAux fuel (rest.drop 3)
    else if rest.take 5 = ['q', 'u', 'o', 't', ';'] then '"' :: unescapeAux fuel (rest.drop 5)
    else if rest.take 5 = ['a', 'p', 'o', 's', ';'] then '\'' :: unescapeAux fuel (rest.drop 5)
    else '&' :: unescapeAux fuel rest
  | fuel + 1, c :: rest => c :: unescapeAux fuel rest

/-- Model of Python stdlib `html.unescape` (see `unescapeAux`). -/
def unescape (s : String) : String := ⟨unescapeAux s.data.length s.data⟩

/-- Embedding of `_normalize_text`:
`re.sub(r"\s+", " ", unescape(value)).strip()`. -/
def normalizeText (value : String) : String :=
  ⟨pyStripList (collapseWsAux false (unescape value).data)⟩

/-! ## The code pattern `_is_code` -/

/-- The optional-suffix part of `_is_code`'s pattern, applied to what is
left after the letter and digit runs: either nothing, or a dot followed by
1–4 suffix characters reaching the end of the string. -/
def codeTailOk : List Char → Bool
  | [] => true
  | c :: tail =>
    decide (c = '.') && (decide (1 ≤ tail.length) && decide (tail.length ≤ 4)) &&
      tail.all isSuffixChar

/-- Embedding of `_is_code`: full match of
`[A-Z]{1,2}\d{2}(?:\.[0-9A-Z]{1,4})?`.  Because the three character classes
are pairwise disjoint and each group is followed by a character no group can
absorb, the regex engine's backtracking search is equivalent to this greedy
decomposition: a maximal run of 1–2 uppercase letters, a maximal run of
exactly 2 digits, then the optional dotted suffix. -/
def isCode (s : String) : Bool :=
  (decide (1 ≤ (s.data.takeWhile isUpperAZ).length) &&
    decide ((s.data.takeWhile isUpperAZ).length ≤ 2)) &&
  decide (((s.data.dropWhile isUpperAZ).takeWhile isDigit09).length = 2) &&
  codeTailOk ((s.data.dropWhile isUpperAZ).dropWhile isDigit09)

/-- Python's `str.startswith` (an executable counterpart of
`String.startsWith` that the kernel can evaluate). -/
def pyStartsWith (s pre : String) : Bool := pre.data.isPrefixOf s.data

/-- Python's substring test `needle in hay` on character lists. -/
def containsSub (needle : List Char) : List Char → Bool
  | [] => needle.isEmpty
  | c :: rest => needle.isPrefixOf (c :: rest) || containsSub needle rest

/-! ## Data model -/

/-- Embedding of the frozen dataclass `MKBEntry`. -/
structure MKBEntry where
  code : String
  serbian : String
  latin : String
deriving DecidableEq, Repr

/-! ## Table strategy `_parse_from_tables`

The input boundary is the list of raw cell texts per row per table, i.e. the
values of `cell.get_text(" ", strip=True)` produced by the external HTML
document model. -/

/-- The mojibake literal that appears verbatim (bytes `C3 85 C2 A1 ...`) in
`scraper.py` line 132: `"Å¡ifra"`. -/
def mojibakeSifra : String := "Å¡ifra"

/-- The per-cell test of the header-row check:
`"Å¡ifra" in cell.lower()`. -/
def headerCellHit (cell : String) : Bool :=
  containsSub mojibakeSifra.data (pyLower cell).data

/-- Embedding of the body of the row loop of `_parse_from_tables`: normalize
every cell, skip empty rows and rows whose any cell triggers the header
check, require at least two cells, require the first cell to match the code
pattern, then build the entry from the first three cells. -/
def parseTableRow (raw : List String) : List MKBEntry :=
  if (raw.map normalizeText).isEmpty then []
  else if (raw.map normalizeText).any headerCellHit then []
  else if (raw.map normalizeText).length < 2 then []
  else
    match raw.map normalizeText with
    | code :: serbian :: rest =>
      if isCode code then [⟨code, serbian, rest.headD ""⟩] else []
    | _ => []

/-- Embedding of `_parse_from_tables`: iterate over every table and, within
it, over every row, appending the entries each row yields. -/
def parseFromTables (tables : List (List (List String))) : List MKBEntry :=
  tables.flatMap (fun rows => rows.flatMap parseTableRow)

/-! ## Structured-block strategy `_parse_from_structured_blocks`

The input boundary is the list of elements of the document: each candidate
container carries its tag name, its `class` attribute tokens, and the list of
its descendant elements (as `find_all(True)` enumerates them, in document
order), each with its own class tokens and extracted text. -/

/-- A descendant element inside a candidate container: its `class` attribute
tokens and its `get_text(" ", strip=True)` text. -/
structure BlockElem where
  classes : List String
  text : String
deriving DecidableEq, Repr

/-- An element of the page considered as a candidate container: tag name,
`class` attribute tokens, and descendant elements in document order. -/
structure Container where
  tag : String
  classes : List String
  descendants : List BlockElem
deriving DecidableEq, Repr

/-- The candidate filter of `_parse_from_structured_blocks`: tag `div` or
`li`, a truthy `class` attribute, and some class token containing `"mkb"`
case-insensitively. -/
def isCandidate (c : Container) : Bool :=
  (c.tag = "div" || c.tag = "li") && !c.classes.isEmpty &&
    c.classes.any (fun cls => containsSub "mkb".data (pyLower cls).data)

/-- Embedding of `_find_first_matching`: the index of the first descendant,
distinct from the excluded one, whose lowered class tokens contain one of the
given substrings.  Identity (`is`) exclusion is modelled by the index. -/
def findFirstMatching (descendants : List BlockElem) (subs : List String)
    (excl : Option Nat) : Option Nat :=
  (List.range descendants.length).find? (fun i =>
    excl ≠ some i &&
      ((descendants.getD i ⟨[], ""⟩).classes.any (fun cls =>
        subs.any (fun sub => containsSub sub.data (pyLower cls).data))))

/-- The normalized text of the descendant at an optional index (`""` when the
element is absent, as in the source). -/
def textAt (descendants : List BlockElem) : Option Nat → String
  | none => ""
  | some i => normalizeText (descendants.getD i ⟨[], ""⟩).text

/-- Embedding of the per-container body of `_parse_from_structured_blocks`. -/
def parseContainer (c : Container) : List MKBEntry :=
  let codeIdx := findFirstMatching c.descendants ["sifra", "code", "oznaka"] none
  let serbianIdx := findFirstMatching c.descendants ["sr", "opis", "naziv"] codeIdx
  let latinIdx := findFirstMatching c.descendants ["lat", "latin"] codeIdx
  let codeText := textAt c.descendants codeIdx
  if isCode codeText then
    [⟨codeText, textAt c.descendants serbianIdx, textAt c.descendants latinIdx⟩]
  else []

/-- Embedding of `_parse_from_structured_blocks`. -/
def parseFromStructuredBlocks (containers : List Container) : List MKBEntry :=
  (containers.filter isCandidate).flatMap parseContainer

/-! ## Free-text strategy `_parse_from_text_blocks`

The input boundary is the list of lines of `soup.get_text("\n",
strip=True)` (the stdlib split into lines).  A line never contains a
newline. -/

/-- One delimiter probe of `re.split(r"\s{2,}\|\s{2,}|\s{2,}", ·)` at the
current position: `some remainder` when a delimiter starts here.  The first
alternative needs a run of 2+ whitespace, a pipe, and another run of 2+
whitespace; because the whitespace run before the pipe is maximal, the engine
finds the pipe exactly when it directly follows that run.  When the first
alternative fails but the initial run has length ≥ 2, the second alternative
consumes just that run. -/
def trySplitAt (l : List Char) : Option (List Char) :=
  let w1 := l.takeWhile isPySpace
  if w1.length < 2 then none
  else
    match l.drop w1.length with
    | '|' :: rest2 =>
      let w2 := rest2.takeWhile isPySpace
      if 2 ≤ w2.length then some (rest2.drop w2.length)
      else some ('|' :: rest2)
    | after => some after

/-- Scanning loop of `re.split(r"\s{2,}\|\s{2,}|\s{2,}", ·)`: at each
position either a delimiter is consumed (closing the current token) or the
character joins the current token.  The fuel argument (initially more than
the list length) only serves termination; each step consumes at least one
character. -/
def pySplitAux : Nat → List Char → List Char → List (List Char)
  | 0, l, acc => [acc.reverse ++ l]
  | _ + 1, [], acc => [acc.reverse]
  | fuel + 1, c :: rest, acc =>
    match trySplitAt (c :: rest) with
    | some rem => acc.reverse :: pySplitAux fuel rem []
    | none => pySplitAux fuel rest (c :: acc)

/-- `re.split(r"\s{2,}\|\s{2,}|\s{2,}", ·)` on a character list. -/
def pySplitRest (l : List Char) : List (List Char) :=
  pySplitAux (l.length + 1) l []

/-- The comprehension
`[part.strip() for part in re.split(..., rest) if part.strip()]` followed by
`parts[0] if parts else ""` and `parts[1] if len(parts) > 1 else ""`. -/
def entryFromRest (code : String) (rest : List Char) : MKBEntry :=
  let parts := ((pySplitRest rest).map pyStripList).filter (fun p => !p.isEmpty)
  ⟨code, ⟨parts.headD []⟩, ⟨(parts.drop 1).headD []⟩⟩

/-- The leading-code part of the line pattern
`^(?P<code>[A-Z]{1,2}\d{2}(?:\.[0-9A-Z]{1,4})?)\s+(?P<rest>.+)$`: on success
returns the code characters and the remainder of the line after the code.
As in `isCode`, disjointness of the character classes makes the regex
engine's search equivalent to this greedy decomposition; a dot after the
digits commits the engine to a 1–4 character suffix followed by a character
outside `[0-9A-Z]` (the whole match fails otherwise, since `\s+` cannot
start at the dot). -/
def parseLineCode (l : List Char) : Option (List Char × List Char) :=
  let letters := l.takeWhile isUpperAZ
  let r1 := l.dropWhile isUpperAZ
  let digits := r1.takeWhile isDigit09
  let r2 := r1.dropWhile isDigit09
  if (decide (1 ≤ letters.length) && decide (letters.length ≤ 2)) &&
      decide (digits.length = 2) then
    match r2 with
    | '.' :: rest3 =>
      let tail := rest3.takeWhile isSuffixChar
      let r4 := rest3.dropWhile isSuffixChar
      if decide (1 ≤ tail.length) && decide (tail.length ≤ 4) then
        some (letters ++ digits ++ '.' :: tail, r4)
      else none
    | _ => some (letters ++ digits, r2)
  else none

/-- Embedding of the per-line body of `_parse_from_text_blocks`.  After the
code group, `\s+(?P<rest>.+)$` matches when either a non-whitespace character
follows some whitespace (greedy: `rest` starts at the first non-whitespace
character), or the line ends in at least two whitespace characters (the
engine backtracks and `rest` is the final whitespace character alone). -/
def parseTextLine (line : String) : Option MKBEntry :=
  match parseLineCode line.data with
  | none => none
  | some (codeChars, rem) =>
    let ws := rem.takeWhile isPySpace
    let rest := rem.dropWhile isPySpace
    if ws.length = 0 then none
    else if !rest.isEmpty then some (entryFromRest ⟨codeChars⟩ rest)
    else if 2 ≤ ws.length then some (entryFromRest ⟨codeChars⟩ [ws.getLastD ' '])
    else none

/-- Embedding of `_parse_from_text_blocks` over the page's text lines. -/
def parseFromTextBlocks (lines : List String) : List MKBEntry :=
  lines.filterMap parseTextLine

/-! ## Page model and the strategy cascade `_parse_entries` -/

/-- A hyperlink of the page: its raw `href` attribute together with the
parse `urlparse(urljoin(index_url, href.strip()))` that the Python standard
library produces for it (the resolution itself is the stdlib collaborator). -/
structure UrlParts where
  scheme : String
  netloc : String
  path : String
  query : String
  fragment : String
deriving DecidableEq, Repr

/-- An anchor element with an `href` attribute (`find_all("a", href=True)`),
carrying the stdlib resolution of its stripped target. -/
structure Anchor where
  href : String
  resolved : UrlParts
deriving DecidableEq, Repr

/-- One fetched page, at the boundaries of the external HTML document model:
its tables (rows of raw cell texts), its elements viewed as candidate
containers, its visible text lines, and its anchors. -/
structure Page where
  tables : List (List (List String))
  containers : List Container
  textLines : List String
  anchors : List Anchor
deriving DecidableEq, Repr

/-- Embedding of `_parse_entries`: extend an empty accumulator with each
strategy's result in priority order, returning as soon as it is nonempty
(`if entries:` is Python truthiness, i.e. nonemptiness). -/
def parseEntries (p : Page) : List MKBEntry :=
  if (parseFromTables p.tables).isEmpty then
    (if (parseFromTables p.tables ++ parseFromStructuredBlocks p.containers).isEmpty then
      (parseFromTables p.tables ++ parseFromStructuredBlocks p.containers) ++
        parseFromTextBlocks p.textLines
    else parseFromTables p.tables ++ parseFromStructuredBlocks p.containers)
  else parseFromTables p.tables

/-! ## Deduplication `_deduplicate`

A Python `dict[str, MKBEntry]` is modelled as an association list in
insertion order: inserting a fresh key appends, updating an existing key
keeps its position.  `list(seen.values())` is the list of values. -/

/-- `dict.__contains__` / `dict.__getitem__`: the value at a key. -/
def assocLookup (k : String) : List (String × MKBEntry) → Option MKBEntry
  | [] => none
  | (k2, v2) :: rest => if k2 = k then some v2 else assocLookup k rest

/-- `dict.__setitem__` on a present key: replace the value in place. -/
def assocUpdate (k : String) (v : MKBEntry) :
    List (String × MKBEntry) → List (String × MKBEntry)
  | [] => []
  | (k2, v2) :: rest =>
    if k2 = k then (k2, v) :: rest else (k2, v2) :: assocUpdate k v rest

/-- The merge of the else-branch of `_deduplicate`:
`entry.serbian or existing.serbian` keeps the incoming value when it is
non-empty and falls back to the existing one otherwise (same for `latin`). -/
def mergeEntry (existing entry : MKBEntry) : MKBEntry :=
  ⟨entry.code,
   if entry.serbian = "" then existing.serbian else entry.serbian,
   if entry.latin = "" then existing.latin else entry.latin⟩

/-- One iteration of the loop of `_deduplicate`. -/
def dedupStep (seen : List (String × MKBEntry)) (entry : MKBEntry) :
    List (String × MKBEntry) :=
  match assocLookup entry.code seen with
  | none => seen ++ [(entry.code, entry)]
  | some existing => assocUpdate entry.code (mergeEntry existing entry) seen

/-- Embedding of `_deduplicate`. -/
def deduplicate (entries : List MKBEntry) : List MKBEntry :=
  (entries.foldl dedupStep []).map (fun kv => kv.2)

/-! ## Canonical sort key `_code_sort_key` -/

/-- `int(·)` on a digit string (48 is the code point of `'0'`). -/
def natOfDigits (l : List Char) : Nat :=
  l.foldl (fun a c => 10 * a + (c.toNat - 48)) 0

/-- The optional-suffix part of `_code_sort_key`'s pattern: given the letter
and digit groups, either the string ends there, or a dot is followed by a
nonempty all-suffix-character group reaching the end. -/
def keyTail (letters digits : List Char) :
    List Char → Option (List Char × List Char × List Char)
  | [] => some (letters, digits, [])
  | c :: tail =>
    if decide (c = '.') && (!tail.isEmpty && tail.all isSuffixChar) then
      some (letters, digits, tail)
    else none

/-- The full match of `([A-Z]+)(\d+)(?:\.([0-9A-Z]+))?` as the three groups.
The classes of the consecutive groups are disjoint and the suffix group
must reach the end, so the regex search is this greedy decomposition. -/
def parseKey (l : List Char) : Option (List Char × List Char × List Char) :=
  if (l.takeWhile isUpperAZ).isEmpty ||
      ((l.dropWhile isUpperAZ).takeWhile isDigit09).isEmpty then none
  else
    keyTail (l.takeWhile isUpperAZ) ((l.dropWhile isUpperAZ).takeWhile isDigit09)
      ((l.dropWhile isUpperAZ).dropWhile isDigit09)

/-- Embedding of `_code_sort_key`: the `(prefix, int(number), suffix)` tuple
on a full match, and the defensive `(code, 0, "")` fallback otherwise. -/
def codeSortKey (code : String) : String × Nat × String :=
  match parseKey code.data with
  | some (letters, digits, tail) => (⟨letters⟩, natOfDigits digits, ⟨tail⟩)
  | none => (code, 0, "")

/-- Model of Python's `<` on strings: lexicographic by code point. -/
def charListLt : List Char → List Char → Bool
  | [], [] => false
  | [], _ :: _ => true
  | _ :: _, [] => false
  | a :: as2, b :: bs =>
    decide (a.toNat < b.toNat) || (decide (a = b) && charListLt as2 bs)

/-- Model of Python's `<` on strings. -/
def pyStrLt (a b : String) : Bool := charListLt a.data b.data

/-- Model of Python's `<` on the sort-key tuples `(str, int, str)`:
lexicographic comparison of the components. -/
def keyLt : String × Nat × String → String × Nat × String → Bool
  | (p1, n1, s1), (p2, n2, s2) =>
    pyStrLt p1 p2 ||
      (decide (p1 = p2) && (decide (n1 < n2) || (decide (n1 = n2) && pyStrLt s1 s2)))

/-- Key order as used by Python's stable `sorted`: an element is placed
before another exactly when its key is not greater. -/
def keyLe (a b : String × Nat × String) : Bool := !keyLt b a

/-- Stable insertion of an entry into a list sorted by `_code_sort_key`:
walk past every strictly smaller key, then insert before the first key that
is not smaller. -/
def insertByKey (e : MKBEntry) : List MKBEntry → List MKBEntry
  | [] => [e]
  | x :: xs =>
    if keyLe (codeSortKey e.code) (codeSortKey x.code) then e :: x :: xs
    else x :: insertByKey e xs

/-- Model of `sorted(entries, key=lambda entry: _code_sort_key(entry.code))`
(a stable sort by the key). -/
def sortEntries (entries : List MKBEntry) : List MKBEntry :=
  entries.foldr insertByKey []

/-! ## Link discovery `_discover_detail_pages` -/

/-- The body of the anchor loop of `_discover_detail_pages`: `some url` when
the anchor survives every filter, carrying the normalized
`scheme://netloc/path` string that is added to the set. -/
def anchorCandidate (baseNetloc indexPath : String) (a : Anchor) : Option String :=
  if pyStrip a.href = "" then none
  else if (pyStrip a.href).data.headD ' ' = '#' then none
  else if !(a.resolved.scheme = "http" || a.resolved.scheme = "https") then none
  else if a.resolved.netloc ≠ baseNetloc then none
  else if rstripSlashes a.resolved.path = rstripSlashes indexPath ||
      rstripSlashes a.resolved.path = rstripSlashes indexPath ++ "/" then none
  else if !pyStartsWith (rstripSlashes a.resolved.path) (rstripSlashes indexPath) then
    none
  else
    some (a.resolved.scheme ++ "://" ++ a.resolved.netloc ++
      rstripSlashes a.resolved.path)

/-- Insertion into a strictly sorted list of distinct strings: the model of
adding one element to the Python `set` and reading the result off with
`sorted`. -/
def insertSortedUnique (s : String) : List String → List String
  | [] => [s]
  | t :: rest =>
    if pyStrLt s t then s :: t :: rest
    else if s = t then t :: rest
    else t :: insertSortedUnique s rest

/-- Embedding of `_discover_detail_pages`: collect the normalized URL of
every surviving anchor into a set and return it sorted. -/
def discoverDetailPages (baseNetloc indexPath : String) (anchors : List Anchor) :
    List String :=
  (anchors.filterMap (anchorCandidate baseNetloc indexPath)).foldl
    (fun acc u => insertSortedUnique u acc) []

/-! ## The scrape run `MKBScraper.scrape`

`Fetcher.fetch` (the `requests` session together with `BeautifulSoup`
parsing) is the external collaborator: a function from a URL to either a
page or a transport error.  `_fetch` has no exception handling, and `scrape`
none either, so an error aborts the run. -/

/-- The detail-page loop of `scrape`: fetch each page in order and parse it;
the first transport error aborts the whole loop. -/
def fetchAndParsePages (fetch : String → Except String Page) :
    List String → Except String (List (List MKBEntry))
  | [] => .ok []
  | u :: rest =>
    match fetch u with
    | .error e => .error e
    | .ok page =>
      match fetchAndParsePages fetch rest with
      | .error e => .error e
      | .ok tails => .ok (parseEntries page :: tails)

/-- Embedding of `MKBScraper.scrape`: fetch the index page, parse it,
discover the detail pages, fetch and parse each of them in order, then
deduplicate and sort.  Any fetch error propagates as the run's result. -/
def scrape (indexUrl baseNetloc indexPath : String)
    (fetch : String → Except String Page) : Except String (List MKBEntry) :=
  match fetch indexUrl with
  | .error e => .error e
  | .ok indexPage =>
    let entries := parseEntries indexPage
    let pages := discoverDetailPages baseNetloc indexPath indexPage.anchors
    match fetchAndParsePages fetch pages with
    | .error e => .error e
    | .ok pageEntries =>
      .ok (sortEntries (deduplicate (entries ++ pageEntries.flatten)))

/-! ## Specification-side definitions

These follow the specification's words, to be compared with the embeddings
above. -/

/-- The code shape as the specification words it: 1–2 uppercase letters,
2 digits, then optionally a dot followed by 1–4 suffix characters. -/
def specCodeShape (l : List Char) : Prop :=
  ∃ letters digits tail,
    l = letters ++ digits ++ tail ∧
    (letters.length = 1 ∨ letters.length = 2) ∧
    (∀ c ∈ letters, isUpperAZ c = true) ∧
    digits.length = 2 ∧
    (∀ c ∈ digits, isDigit09 c = true) ∧
    (tail = [] ∨
      ∃ suffix, tail = '.' :: suffix ∧ 1 ≤ suffix.length ∧ suffix.length ≤ 4 ∧
        ∀ c ∈ suffix, isSuffixChar c = true)

/-- The sort-key decomposition as the specification words it: a nonempty
letter group, a nonempty digit group, and an optional dot-led nonempty
suffix group (empty suffix when the dot is absent). -/
def specKeyParses (l letters digits suffix : List Char) : Prop :=
  letters ≠ [] ∧ (∀ c ∈ letters, isUpperAZ c = true) ∧
  digits ≠ [] ∧ (∀ c ∈ digits, isDigit09 c = true) ∧
  ((l = letters ++ digits ∧ suffix = []) ∨
    (l = letters ++ digits ++ '.' :: suffix ∧ suffix ≠ [] ∧
      ∀ c ∈ suffix, isSuffixChar c = true))

/-- The decimal value of a digit string, written positionally (the
specification's "integer value of the digit group"). -/
def specDigitsValue (digits : List Char) : Nat :=
  Nat.ofDigits 10 ((digits.map (fun c => c.toNat - 48)).reverse)

/-- The codes in first-seen order with an accumulator of already seen codes:
the key order of a Python dict filled by insertion. -/
def firstSeenAux (seen : List String) : List String → List String
  | [] => []
  | c :: rest =>
    if c ∈ seen then firstSeenAux seen rest
    else c :: firstSeenAux (c :: seen) rest

/-- The codes of a run in first-seen order. -/
def firstSeen (codes : List String) : List String := firstSeenAux [] codes

/-- The last non-empty value in a list of field values, or `""` when every
value is empty: the field-merge outcome of `_deduplicate`'s policy. -/
def fieldFold (values : List String) : String :=
  values.foldl (fun acc v => if v = "" then acc else v) ""

/-- The record `_deduplicate`'s merge policy produces for one code: each
description field holds the last non-empty value among the code's
occurrences in input order. -/
def expectedRecord (entries : List MKBEntry) (c : String) : MKBEntry :=
  ⟨c, fieldFold ((entries.filter (fun e => e.code = c)).map MKBEntry.serbian),
      fieldFold ((entries.filter (fun e => e.code = c)).map MKBEntry.latin)⟩

end MkbScrape

namespace MkbScrape

example : isCode "A00" = true := by decide
example : isCode "B00.1" = true := by decide
example : isCode "AB12.3A" = true := by decide
example : isCode "A0" = false := by decide
example : isCode "1A0" = false := by decide
example : isCode "A000" = false := by decide
example : isCode "A00.12345" = false := by decide
example : normalizeText "  a   b " = "a b" := by decide
example : pyLower "Šifra: B00" = "šifra: b00" := by decide

example : parseTextLine "A00   Kolera   Cholera" = some ⟨"A00", "Kolera", "Cholera"⟩ := by decide
example : parseTextLine "foo bar" = none := by decide
example : parseTextLine "A00 Kolera  |  Cholera" = some ⟨"A00", "Kolera", "Cholera"⟩ := by decide
example : parseTextLine "A00 Kolera | Cholera" = some ⟨"A00", "Kolera | Cholera", ""⟩ := by decide
example : parseTextLine "A00  a  b  c" = some ⟨"A00", "a", "b"⟩ := by decide
example : parseTextLine "A00  " = some ⟨"A00", "", ""⟩ := by decide
example : parseTextLine "A00 " = none := by decide
example : parseTextLine "A00" = none := by decide

example : parseTableRow ["A00", "Kolera", "Cholera"] = [⟨"A00", "Kolera", "Cholera"⟩] := by decide
example : parseTableRow ["A00", "Kolera"] = [⟨"A00", "Kolera", ""⟩] := by decide
example : parseTableRow ["Šifra: B00", "Naziv: Herpes simpleks", "Latinski: Herpes simplex"] = [] := by decide
example : parseTableRow ["A00", "šifra"] = [⟨"A00", "šifra", ""⟩] := by decide

example : deduplicate [⟨"A00", "Kolera", ""⟩, ⟨"A00", "", "Cholera"⟩] =
    [⟨"A00", "Kolera", "Cholera"⟩] := by decide
example : deduplicate [⟨"A00", "X", ""⟩, ⟨"A00", "Y", ""⟩] = [⟨"A00", "Y", ""⟩] := by decide

example : codeSortKey "A9" = ("A", 9, "") := by decide
example : codeSortKey "A10" = ("A", 10, "") := by decide
example : keyLt (codeSortKey "A9") (codeSortKey "A10") = true := by decide
example : codeSortKey "foo" = ("foo", 0, "") := by decide
example : codeSortKey "A01.2X" = ("A", 1, "2X") := by decide

example : discoverDetailPages "www.x.rs" "/mkb"
    [⟨"/mkb/a00/", ⟨"https", "www.x.rs", "/mkb/a00/", "", ""⟩⟩,
     ⟨"/mkb", ⟨"https", "www.x.rs", "/mkb", "", ""⟩⟩,
     ⟨"#top", ⟨"https", "www.x.rs", "/mkb", "", ""⟩⟩,
     ⟨"/other", ⟨"https", "www.x.rs", "/other", "", ""⟩⟩,
     ⟨"http://else.rs/mkb/b", ⟨"http", "else.rs", "/mkb/b", "", ""⟩⟩,
     ⟨"/mkb/a00", ⟨"https", "www.x.rs", "/mkb/a00", "", ""⟩⟩] =
    ["https://www.x.rs/mkb/a00"] := by decide

/-! ## Helper lemmas about character runs -/

theorem takeWhile_append_run {p : Char → Bool} {fore rest : List Char}
    (h1 : ∀ c ∈ fore, p c = true) (h2 : ∀ c, rest.head? = some c → p c = false) :
    (fore ++ rest).takeWhile p = fore := by
  induction fore with
  | nil =>
    cases rest with
    | nil => rfl
    | cons c t => simp [List.takeWhile_cons, h2 c rfl]
  | cons a fore ih =>
    have ha : p a = true := h1 a (by simp)
    simp only [List.cons_append, List.takeWhile_cons, ha, if_true]
    rw [ih (fun c hc => h1 c (by simp [hc]))]

theorem dropWhile_append_run {p : Char → Bool} {fore rest : List Char}
    (h1 : ∀ c ∈ fore, p c = true) (h2 : ∀ c, rest.head? = some c → p c = false) :
    (fore ++ rest).dropWhile p = rest := by
  induction fore with
  | nil =>
    cases rest with
    | nil => rfl
    | cons c t => simp [List.dropWhile_cons, h2 c rfl]
  | cons a fore ih =>
    have ha : p a = true := h1 a (by simp)
    simp only [List.cons_append, List.dropWhile_cons, ha, if_true]
    exact ih (fun c hc => h1 c (by simp [hc]))

theorem digit_not_upper {c : Char} (h : isDigit09 c = true) : isUpperAZ c = false := by
  simp only [isDigit09, Bool.and_eq_true, decide_eq_true_eq] at h
  simp only [isUpperAZ, Bool.and_eq_false_iff, decide_eq_false_iff_not]
  omega

theorem codeTailOk_iff (l : List Char) :
    codeTailOk l = true ↔
      (l = [] ∨ ∃ suffix, l = '.' :: suffix ∧ 1 ≤ suffix.length ∧
        suffix.length ≤ 4 ∧ ∀ c ∈ suffix, isSuffixChar c = true) := by
  cases l with
  | nil => simp [codeTailOk]
  | cons c tail =>
    simp only [codeTailOk, Bool.and_eq_true, decide_eq_true_eq, List.all_eq_true]
    constructor
    · rintro ⟨⟨hc, h1, h4⟩, hall⟩
      exact Or.inr ⟨tail, by rw [hc], h1, h4, hall⟩
    · rintro (h | ⟨suffix, hs, h1, h4, hall⟩)
      · cases h
      · injection hs with hc ht
        subst ht
        exact ⟨⟨hc, h1, h4⟩, hall⟩

/-- The claim's acceptance examples and rejection examples for the code
pattern, plus the exact characterization: `_is_code` accepts precisely the
strings of the shape the specification describes. -/
theorem c7_code_pattern_exact (s : String) :
    (isCode s = true ↔ specCodeShape s.data) ∧
    isCode "A00" = true ∧ isCode "B00.1" = true ∧ isCode "AB12.3A" = true ∧
    isCode "A0" = false ∧ isCode "1A0" = false ∧ isCode "A000" = false := by
  refine ⟨⟨?_, ?_⟩, by decide, by decide, by decide, by decide, by decide, by decide⟩
  · intro h
    simp only [isCode, Bool.and_eq_true, decide_eq_true_eq] at h
    obtain ⟨⟨⟨h1, h2⟩, h3⟩, h4⟩ := h
    refine ⟨s.data.takeWhile isUpperAZ,
      (s.data.dropWhile isUpperAZ).takeWhile isDigit09,
      (s.data.dropWhile isUpperAZ).dropWhile isDigit09, ?_, by omega,
      fun c hc => List.mem_takeWhile_imp hc, h3,
      fun c hc => List.mem_takeWhile_imp hc, ?_⟩
    · rw [List.append_assoc, List.takeWhile_append_dropWhile,
        List.takeWhile_append_dropWhile]
    · exact (codeTailOk_iff _).mp h4
  · rintro ⟨letters, digits, tail, heq, hlen, hupper, hdlen, hdigits, htail⟩
    have hdne : ∀ c, (digits ++ tail).head? = some c → isUpperAZ c = false := by
      intro c hc
      cases digits with
      | nil => simp at hdlen
      | cons d ds =>
        simp only [List.cons_append, List.head?_cons, Option.some.injEq] at hc
        exact hc ▸ digit_not_upper (hdigits d (by simp))
    have htne : ∀ c, tail.head? = some c → isDigit09 c = false := by
      intro c hc
      rcases htail with h | ⟨suffix, hs, _, _, _⟩
      · subst h; simp at hc
      · subst hs
        simp only [List.head?_cons, Option.some.injEq] at hc
        subst hc; decide
    have e1 : s.data.takeWhile isUpperAZ = letters := by
      rw [heq, List.append_assoc]
      exact takeWhile_append_run hupper hdne
    have e2 : s.data.dropWhile isUpperAZ = digits ++ tail := by
      rw [heq, List.append_assoc]
      exact dropWhile_append_run hupper hdne
    have e3 : (digits ++ tail).takeWhile isDigit09 = digits :=
      takeWhile_append_run hdigits htne
    have e4 : (digits ++ tail).dropWhile isDigit09 = tail :=
      dropWhile_append_run hdigits htne
    simp only [isCode, e1, e2, e3, e4, Bool.and_eq_true, decide_eq_true_eq]
    exact ⟨⟨⟨by omega, by omega⟩, hdlen⟩, (codeTailOk_iff _).mpr htail⟩

/-! ## Lemmas about the canonical sort key (C6) -/

theorem parseKey_of_spec {l letters digits suffix : List Char}
    (h : specKeyParses l letters digits suffix) :
    parseKey l = some (letters, digits, suffix) := by
  obtain ⟨hLne, hupper, hDne, hdigits, hcase⟩ := h
  have hdne : ∀ rest : List Char, ∀ c, (digits ++ rest).head? = some c →
      isUpperAZ c = false := by
    intro rest c hc
    cases digits with
    | nil => exact absurd rfl hDne
    | cons d ds =>
      simp only [List.cons_append, List.head?_cons, Option.some.injEq] at hc
      exact hc ▸ digit_not_upper (hdigits d (by simp))
  rcases hcase with ⟨heq, hsuf⟩ | ⟨heq, hsne, hsall⟩
  · have e1 : l.takeWhile isUpperAZ = letters := by
      rw [heq]; exact takeWhile_append_run hupper (by simpa using hdne [])
    have e2 : l.dropWhile isUpperAZ = digits := by
      rw [heq]; exact dropWhile_append_run hupper (by simpa using hdne [])
    have e3 : digits.takeWhile isDigit09 = digits := by
      have h0 := @takeWhile_append_run isDigit09 digits [] hdigits
        (by intro c hc; simp at hc)
      simpa using h0
    have e4 : digits.dropWhile isDigit09 = [] := by
      have h0 := @dropWhile_append_run isDigit09 digits [] hdigits
        (by intro c hc; simp at hc)
      simpa using h0
    subst hsuf
    unfold parseKey
    rw [e1, e2, e3, e4,
      if_neg (by simp [Bool.or_eq_true, List.isEmpty_iff, hLne, hDne])]
    rfl
  · have hrest : ∀ c, ('.' :: suffix).head? = some c → isDigit09 c = false := by
      intro c hc
      simp only [List.head?_cons, Option.some.injEq] at hc
      subst hc; decide
    have e1 : l.takeWhile isUpperAZ = letters := by
      rw [heq, List.append_assoc]
      exact takeWhile_append_run hupper (hdne _)
    have e2 : l.dropWhile isUpperAZ = digits ++ '.' :: suffix := by
      rw [heq, List.append_assoc]
      exact dropWhile_append_run hupper (hdne _)
    have e3 : (digits ++ '.' :: suffix).takeWhile isDigit09 = digits :=
      takeWhile_append_run hdigits hrest
    have e4 : (digits ++ '.' :: suffix).dropWhile isDigit09 = '.' :: suffix :=
      dropWhile_append_run hdigits hrest
    unfold parseKey
    rw [e1, e2, e3, e4,
      if_neg (by simp [Bool.or_eq_true, List.isEmpty_iff, hLne, hDne])]
    have hemp : suffix.isEmpty = false := by
      cases suffix with
      | nil => exact absurd rfl hsne
      | cons a t => rfl
    have hall2 : suffix.all isSuffixChar = true := List.all_eq_true.mpr hsall
    simp only [keyTail]
    rw [if_pos (by simp [hemp, hall2])]

theorem spec_of_parseKey {l letters digits suffix : List Char}
    (h : parseKey l = some (letters, digits, suffix)) :
    specKeyParses l letters digits suffix := by
  unfold parseKey at h
  split at h
  · exact absurd h (by simp)
  · next hcond =>
    simp only [Bool.or_eq_true, List.isEmpty_iff, not_or] at hcond
    obtain ⟨hLne, hDne⟩ := hcond
    have hsplit : l = l.takeWhile isUpperAZ ++
        ((l.dropWhile isUpperAZ).takeWhile isDigit09 ++
          (l.dropWhile isUpperAZ).dropWhile isDigit09) := by
      rw [List.takeWhile_append_dropWhile, List.takeWhile_append_dropWhile]
    cases hr : (l.dropWhile isUpperAZ).dropWhile isDigit09 with
    | nil =>
      rw [hr] at h
      simp only [keyTail, Option.some.injEq, Prod.mk.injEq] at h
      obtain ⟨hL, hD, hS⟩ := h
      subst hL; subst hD
      refine ⟨hLne, fun c hc => List.mem_takeWhile_imp hc, hDne,
        fun c hc => List.mem_takeWhile_imp hc, Or.inl ⟨?_, hS.symm⟩⟩
      conv_lhs => rw [hsplit]
      rw [hr, List.append_nil]
    | cons c tail =>
      rw [hr] at h
      simp only [keyTail] at h
      split at h
      · next hcond2 =>
        simp only [Bool.and_eq_true, decide_eq_true_eq, Bool.not_eq_true',
          List.isEmpty_iff, List.all_eq_true] at hcond2
        obtain ⟨hdot, htne, hall⟩ := hcond2
        simp only [Option.some.injEq, Prod.mk.injEq] at h
        obtain ⟨hL, hD, hS⟩ := h
        subst hL; subst hD
        refine ⟨hLne, fun c2 hc2 => List.mem_takeWhile_imp hc2, hDne,
          fun c2 hc2 => List.mem_takeWhile_imp hc2, Or.inr ⟨?_, ?_, ?_⟩⟩
        · conv_lhs => rw [hsplit]
          rw [hr, hdot, hS, ← List.append_assoc]
        · rw [← hS]; simpa using htne
        · intro c2 hc2
          exact hall c2 (hS ▸ hc2)
      · exact absurd h (by simp)

theorem natOfDigits_foldl (digits : List Char) :
    ∀ a : Nat, digits.foldl (fun x c => 10 * x + (c.toNat - 48)) a =
      a * 10 ^ digits.length + specDigitsValue digits := by
  induction digits with
  | nil => intro a; simp [specDigitsValue, Nat.ofDigits]
  | cons c ds ih =>
    intro a
    simp only [List.foldl_cons, List.length_cons, specDigitsValue, List.map_cons,
      List.reverse_cons]
    rw [ih]
    rw [Nat.ofDigits_append]
    simp only [Nat.ofDigits_singleton, List.length_reverse, List.length_map]
    unfold specDigitsValue
    ring

theorem natOfDigits_eq_spec (digits : List Char) :
    natOfDigits digits = specDigitsValue digits := by
  have := natOfDigits_foldl digits 0
  simpa [natOfDigits] using this

theorem charListLt_asymm : ∀ {a b : List Char},
    charListLt a b = true → charListLt b a = true → False := by
  intro a
  induction a with
  | nil => intro b h1 h2; cases b <;> simp [charListLt] at h1 h2
  | cons x xs ih =>
    intro b h1 h2
    cases b with
    | nil => simp [charListLt] at h1
    | cons y ys =>
      simp only [charListLt, Bool.or_eq_true, Bool.and_eq_true,
        decide_eq_true_eq] at h1 h2
      rcases h1 with h1 | ⟨he1, h1⟩ <;> rcases h2 with h2 | ⟨he2, h2⟩
      · omega
      · subst he2; omega
      · subst he1; omega
      · exact ih h1 h2

theorem keyLt_asymm {k1 k2 : String × Nat × String}
    (h1 : keyLt k1 k2 = true) (h2 : keyLt k2 k1 = true) : False := by
  obtain ⟨p1, n1, s1⟩ := k1
  obtain ⟨p2, n2, s2⟩ := k2
  simp only [keyLt, pyStrLt, Bool.or_eq_true, Bool.and_eq_true,
    decide_eq_true_eq] at h1 h2
  rcases h1 with h1 | ⟨he1, h1⟩ <;> rcases h2 with h2 | ⟨he2, h2⟩
  · exact charListLt_asymm h1 h2
  · subst he2; exact charListLt_asymm h1 h1
  · subst he1; exact charListLt_asymm h2 h2
  · rcases h1 with h1 | ⟨hn1, h1⟩ <;> rcases h2 with h2 | ⟨hn2, h2⟩
    · omega
    · omega
    · omega
    · exact charListLt_asymm h1 h2

theorem keyLe_flip {k1 k2 : String × Nat × String} (h : keyLe k1 k2 = false) :
    keyLe k2 k1 = true := by
  simp only [keyLe, Bool.not_eq_false'] at h
  simp only [keyLe, Bool.not_eq_true']
  cases hx : keyLt k1 k2 with
  | false => rfl
  | true => exact absurd (keyLt_asymm h hx) (fun f => f)

theorem insertByKey_head {e : MKBEntry} {l : List MKBEntry} {y : MKBEntry}
    (h : (insertByKey e l).head? = some y) : y = e ∨ l.head? = some y := by
  cases l with
  | nil => simp only [insertByKey, List.head?_cons, Option.some.injEq] at h; exact Or.inl h.symm
  | cons x xs =>
    by_cases hc : keyLe (codeSortKey e.code) (codeSortKey x.code) = true
    · rw [insertByKey, if_pos hc] at h
      simp only [List.head?_cons, Option.some.injEq] at h
      exact Or.inl h.symm
    · rw [insertByKey, if_neg hc] at h
      exact Or.inr h

theorem chain'_insertByKey {e : MKBEntry} {l : List MKBEntry}
    (h : l.Chain' (fun a b => keyLe (codeSortKey a.code) (codeSortKey b.code) = true)) :
    (insertByKey e l).Chain'
      (fun a b => keyLe (codeSortKey a.code) (codeSortKey b.code) = true) := by
  induction l with
  | nil => simp [insertByKey]
  | cons x xs ih =>
    by_cases hc : keyLe (codeSortKey e.code) (codeSortKey x.code) = true
    · rw [insertByKey, if_pos hc]
      exact List.chain'_cons.mpr ⟨hc, h⟩
    · rw [insertByKey, if_neg hc]
      rw [List.chain'_cons']
      refine ⟨?_, ih (List.Chain'.tail h)⟩
      intro y hy
      rcases insertByKey_head hy with hye | hyx
      · subst hye
        exact keyLe_flip (Bool.eq_false_iff.mpr hc)
      · exact (List.chain'_cons'.mp h).1 y hyx

theorem chain'_sortEntries (l : List MKBEntry) :
    (sortEntries l).Chain'
      (fun a b => keyLe (codeSortKey a.code) (codeSortKey b.code) = true) := by
  induction l with
  | nil => simp [sortEntries]
  | cons e rest ih => exact chain'_insertByKey ih

/-- The sort key decomposes a parsable code into letter group, digit value
and suffix; every key is either that decomposition or the defensive
fallback `(raw, 0, "")` (it never raises); key comparison is lexicographic
on the components with the digit group compared numerically, so `A9` sorts
before `A10`; and the sort it induces leaves the entries in key order. -/
theorem c6_sort_key (s : String) (letters digits suffix : List Char)
    (h : specKeyParses s.data letters digits suffix) :
    codeSortKey s = (⟨letters⟩, natOfDigits digits, ⟨suffix⟩) ∧
    natOfDigits digits = specDigitsValue digits ∧
    (∀ t : String, codeSortKey t = (t, 0, "") ∨
      ∃ L D S, specKeyParses t.data L D S ∧
        codeSortKey t = (⟨L⟩, natOfDigits D, ⟨S⟩)) ∧
    codeSortKey "A9" = ("A", 9, "") ∧ codeSortKey "A10" = ("A", 10, "") ∧
    keyLt (codeSortKey "A9") (codeSortKey "A10") = true ∧
    codeSortKey "A9.b" = ("A9.b", 0, "") ∧
    (∀ l : List MKBEntry, (sortEntries l).Chain'
      (fun a b => keyLe (codeSortKey a.code) (codeSortKey b.code) = true)) := by
  refine ⟨?_, natOfDigits_eq_spec digits, ?_, by decide, by decide, by decide,
    by decide, chain'_sortEntries⟩
  · simp [codeSortKey, parseKey_of_spec h]
  · intro t
    cases hp : parseKey t.data with
    | none => exact Or.inl (by simp [codeSortKey, hp])
    | some v =>
      obtain ⟨L, D, S⟩ := v
      exact Or.inr ⟨L, D, S, spec_of_parseKey hp, by simp [codeSortKey, hp]⟩

/-- Witness for `c6_sort_key` at the concrete code `A10`. -/
theorem c6_sort_key_witness :
    specKeyParses "A10".data ['A'] ['1', '0'] [] ∧
      codeSortKey "A10" = ("A", 10, "") := by
  have hp : specKeyParses "A10".data ['A'] ['1', '0'] [] := by
    unfold specKeyParses
    refine ⟨by decide, by decide, by decide, by decide, Or.inl (by decide)⟩
  have := c6_sort_key "A10" ['A'] ['1', '0'] [] hp
  exact ⟨hp, by simpa using this.1⟩

/-! ## The table strategy on wide rows (C10) and on the labelled and
header scenarios (C2, C3) -/

/-- A table row with four or more cells yields at most the single entry
built from its first three normalized cells: the row is dropped when some
cell trips the header check or the first cell fails the code pattern, and
the cells beyond the third never reach the entry's fields (they only
participate in the header check, which ranges over the whole row). -/
theorem c10_wide_row_first_three (r0 r1 r2 r3 : String) (rest : List String) :
    parseTableRow (r0 :: r1 :: r2 :: r3 :: rest) =
      if ((r0 :: r1 :: r2 :: r3 :: rest).map normalizeText).any headerCellHit then []
      else if isCode (normalizeText r0) then
        [⟨normalizeText r0, normalizeText r1, normalizeText r2⟩]
      else [] := by
  by_cases hh :
      ((r0 :: r1 :: r2 :: r3 :: rest).map normalizeText).any headerCellHit = true
  · rw [if_pos hh, parseTableRow, if_neg (by simp), if_pos hh]
  · rw [if_neg hh, parseTableRow, if_neg (by simp), if_neg hh,
      if_neg (by simp only [List.length_map, List.length_cons]; omega)]
    simp only [List.map_cons]
    rfl

/-- Evaluation of the table strategy at a row whose second cell contains
the properly encoded word "šifra": the mojibake header check does not fire
(even though the specification's intended check would), and the row yields
an entry. -/
theorem c3_header_check_eval :
    parseFromTables [[["A00", "Red šifra"]]] = [⟨"A00", "Red šifra", ""⟩] ∧
    containsSub "šifra".data (pyLower "Red šifra").data = true ∧
    headerCellHit "Red šifra" = false := by
  exact ⟨by decide, by decide, by decide⟩

/-- Evaluation of the two higher strategies at the specification's labelled
scenarios: no label is ever stripped, so the labelled code cells fail the
code pattern and both scenarios yield no entry at all. -/
theorem c2_labelled_scenarios_eval :
    parseFromTables
      [[["Šifra: B00", "Naziv: Herpes simpleks", "Latinski: Herpes simplex"]]] = [] ∧
    parseFromStructuredBlocks
      [⟨"div", ["mkb-item"],
        [⟨["sifra"], "Šifra: A00"⟩, ⟨["naziv"], "Opis: Kolera"⟩,
         ⟨["latin"], "Latinski: Cholera"⟩]⟩] = [] ∧
    isCode (normalizeText "Šifra: B00") = false ∧
    normalizeText "Šifra: B00" = "Šifra: B00" := by
  exact ⟨by decide, by decide, by decide, by decide⟩

/-! ## The strategy cascade (C4) -/

theorem parseEntries_cases (r : Page) :
    parseEntries r =
      if (parseFromTables r.tables).isEmpty then
        (if (parseFromStructuredBlocks r.containers).isEmpty then
          parseFromTextBlocks r.textLines
        else parseFromStructuredBlocks r.containers)
      else parseFromTables r.tables := by
  cases h1 : (parseFromTables r.tables).isEmpty with
  | false => rw [parseEntries, h1]; rfl
  | true =>
    have h1' : parseFromTables r.tables = [] := List.isEmpty_iff.mp h1
    cases h2 : (parseFromStructuredBlocks r.containers).isEmpty with
    | false =>
      rw [parseEntries, h1]
      simp [h1', h2]
    | true =>
      rw [parseEntries, h1]
      simp [h1', List.isEmpty_iff.mp h2]

/-- The three strategies run in fixed priority order and the first nonempty
result is returned unchanged: when the table strategy yields anything, the
page's result is exactly the table result, independent of the page's blocks
and text (the result is the same for any other page with the same tables);
when it yields nothing, the structured-block result is returned if nonempty,
and otherwise the free-text result. -/
theorem c4_first_nonempty_strategy (p q : Page) (htab : q.tables = p.tables)
    (hne : parseFromTables p.tables ≠ []) :
    parseEntries p = parseFromTables p.tables ∧
    parseEntries q = parseFromTables p.tables ∧
    (∀ r : Page, parseEntries r =
      if (parseFromTables r.tables).isEmpty then
        (if (parseFromStructuredBlocks r.containers).isEmpty then
          parseFromTextBlocks r.textLines
        else parseFromStructuredBlocks r.containers)
      else parseFromTables r.tables) := by
  have hemp : (parseFromTables p.tables).isEmpty = false := by
    cases hv : parseFromTables p.tables with
    | nil => exact absurd hv hne
    | cons a t => rfl
  refine ⟨?_, ?_, parseEntries_cases⟩
  · rw [parseEntries_cases p, hemp]; rfl
  · rw [parseEntries_cases q, htab, hemp]; rfl

/-- Witness for `c4_first_nonempty_strategy`: a page whose table strategy
succeeds, paired with a page sharing its tables but carrying a structured
block and text that could themselves parse; the table result shadows both. -/
theorem c4_first_nonempty_strategy_witness :
    parseEntries
        ⟨[[["A00", "Kolera", "Cholera"]]],
         [⟨"div", ["mkb-item"], [⟨["sifra"], "B00"⟩]⟩],
         ["C00  Tumor  Neoplasma"], []⟩ =
      [⟨"A00", "Kolera", "Cholera"⟩] := by
  have h := c4_first_nonempty_strategy
    ⟨[[["A00", "Kolera", "Cholera"]]], [], [], []⟩
    ⟨[[["A00", "Kolera", "Cholera"]]],
     [⟨"div", ["mkb-item"], [⟨["sifra"], "B00"⟩]⟩],
     ["C00  Tumor  Neoplasma"], []⟩
    rfl (by decide)
  rw [h.2.1]
  decide

/-! ## The free-text strategy (C8) -/

/-- Counterexample to the claim that a single-space `" | "` is a split
delimiter in the free-text strategy: the split regex requires at least two
whitespace characters on each side of the pipe, so for the line
`"A00 Kolera | Cholera"` the whole remainder, pipe included, becomes the
primary description and the secondary stays empty — not the claimed
`("A00", "Kolera", "Cholera")`. -/
theorem c8_single_space_pipe_counterexample :
    parseTextLine "A00 Kolera | Cholera" = some ⟨"A00", "Kolera | Cholera", ""⟩ ∧
    (some (MKBEntry.mk "A00" "Kolera | Cholera" "") ≠
      some ⟨"A00", "Kolera", "Cholera"⟩) := by
  exact ⟨by decide, by decide⟩

/-- The free-text strategy maps `parseTextLine` over the page's lines; a
line is matched for a leading code token, whitespace and a remainder; the
remainder splits on runs of two or more whitespace characters, where a pipe
flanked by such runs on both sides is absorbed into the delimiter; the first
and second non-empty stripped parts become the two descriptions and any
further parts are dropped; a pipe with single spaces around it is not a
delimiter and stays inside the primary description. -/
theorem c8_free_text_lines_amended :
    (∀ lines : List String, parseFromTextBlocks lines = lines.filterMap parseTextLine) ∧
    parseTextLine "A00   Kolera   Cholera" = some ⟨"A00", "Kolera", "Cholera"⟩ ∧
    parseTextLine "foo bar" = none ∧
    parseTextLine "A00 Kolera  |  Cholera" = some ⟨"A00", "Kolera", "Cholera"⟩ ∧
    parseTextLine "A00 Kolera | Cholera" = some ⟨"A00", "Kolera | Cholera", ""⟩ ∧
    parseTextLine "A00  prvi  drugi  treci" = some ⟨"A00", "prvi", "drugi"⟩ := by
  exact ⟨fun lines => rfl, by decide, by decide, by decide, by decide, by decide⟩

/-! ## Lemmas about the string order and the link discoverer (C5) -/

theorem char_toNat_inj {x y : Char} (h : x.toNat = y.toNat) : x = y :=
  Char.ext (UInt32.ext (by simpa [Char.toNat] using h))

theorem charListLt_trans : ∀ {a b c : List Char}, charListLt a b = true →
    charListLt b c = true → charListLt a c = true := by
  intro a
  induction a with
  | nil =>
    intro b c h1 h2
    cases b <;> cases c <;> simp_all [charListLt]
  | cons x xs ih =>
    intro b c h1 h2
    cases b with
    | nil => simp [charListLt] at h1
    | cons y ys =>
      cases c with
      | nil => simp [charListLt] at h2
      | cons z zs =>
        simp only [charListLt, Bool.or_eq_true, Bool.and_eq_true,
          decide_eq_true_eq] at h1 h2 ⊢
        rcases h1 with h1 | ⟨he1, h1⟩ <;> rcases h2 with h2 | ⟨he2, h2⟩
        · left; omega
        · subst he2; left; exact h1
        · subst he1; left; exact h2
        · subst he1; subst he2; exact Or.inr ⟨rfl, ih h1 h2⟩

theorem charListLt_irrefl : ∀ (a : List Char), charListLt a a = false := by
  intro a
  induction a with
  | nil => rfl
  | cons x xs ih => simp [charListLt, ih]

theorem charListLt_total : ∀ (a b : List Char),
    charListLt a b = true ∨ a = b ∨ charListLt b a = true := by
  intro a
  induction a with
  | nil =>
    intro b
    cases b with
    | nil => exact Or.inr (Or.inl rfl)
    | cons y ys => exact Or.inl rfl
  | cons x xs ih =>
    intro b
    cases b with
    | nil => exact Or.inr (Or.inr rfl)
    | cons y ys =>
      rcases Nat.lt_trichotomy x.toNat y.toNat with h | h | h
      · left; simp [charListLt, h]
      · have hxy : x = y := char_toNat_inj h
        subst hxy
        rcases ih ys with h2 | h2 | h2
        · left; simp [charListLt, h2]
        · subst h2; exact Or.inr (Or.inl rfl)
        · right; right; simp [charListLt, h2]
      · right; right; simp [charListLt, h]

theorem pyStrLt_of_not {s t : String} (h1 : pyStrLt s t ≠ true) (h2 : s ≠ t) :
    pyStrLt t s = true := by
  rcases charListLt_total s.data t.data with hc | hc | hc
  · exact absurd hc h1
  · refine absurd ?_ h2
    cases s; cases t
    exact congrArg String.mk (by simpa using hc)
  · exact hc

theorem mem_insertSortedUnique {s x : String} : ∀ {acc : List String},
    x ∈ insertSortedUnique s acc → x = s ∨ x ∈ acc := by
  intro acc
  induction acc with
  | nil =>
    intro h
    simp only [insertSortedUnique, List.mem_singleton] at h
    exact Or.inl h
  | cons t rest ih =>
    intro h
    by_cases h1 : pyStrLt s t = true
    · rw [insertSortedUnique, if_pos h1] at h
      exact List.mem_cons.mp h
    · rw [insertSortedUnique, if_neg h1] at h
      by_cases h2 : s = t
      · rw [if_pos h2] at h
        exact Or.inr h
      · rw [if_neg h2] at h
        rcases List.mem_cons.mp h with rfl | h3
        · exact Or.inr (by simp)
        · rcases ih h3 with h4 | h4
          · exact Or.inl h4
          · exact Or.inr (by simp [h4])

theorem insertSortedUnique_head {s y : String} : ∀ {acc : List String},
    (insertSortedUnique s acc).head? = some y → y = s ∨ acc.head? = some y := by
  intro acc
  cases acc with
  | nil =>
    intro h
    simp only [insertSortedUnique, List.head?_cons, Option.some.injEq] at h
    exact Or.inl h.symm
  | cons t rest =>
    intro h
    by_cases h1 : pyStrLt s t = true
    · rw [insertSortedUnique, if_pos h1] at h
      simp only [List.head?_cons, Option.some.injEq] at h
      exact Or.inl h.symm
    · rw [insertSortedUnique, if_neg h1] at h
      by_cases h2 : s = t
      · rw [if_pos h2] at h
        exact Or.inr h
      · rw [if_neg h2] at h
        exact Or.inr h

theorem chain'_insertSortedUnique {s : String} {acc : List String}
    (h : acc.Chain' (fun a b => pyStrLt a b = true)) :
    (insertSortedUnique s acc).Chain' (fun a b => pyStrLt a b = true) := by
  induction acc with
  | nil => simp [insertSortedUnique]
  | cons t rest ih =>
    by_cases h1 : pyStrLt s t = true
    · rw [insertSortedUnique, if_pos h1]
      exact List.chain'_cons.mpr ⟨h1, h⟩
    · rw [insertSortedUnique, if_neg h1]
      by_cases h2 : s = t
      · rw [if_pos h2]
        exact h
      · rw [if_neg h2]
        rw [List.chain'_cons']
        refine ⟨?_, ih (List.chain'_cons'.mp h).2⟩
        intro y hy
        rcases insertSortedUnique_head hy with rfl | hyr
        · exact pyStrLt_of_not h1 h2
        · exact (List.chain'_cons'.mp h).1 y hyr

theorem chain'_foldl_insert (l : List String) : ∀ acc : List String,
    acc.Chain' (fun a b => pyStrLt a b = true) →
    (l.foldl (fun a u => insertSortedUnique u a) acc).Chain'
      (fun a b => pyStrLt a b = true) := by
  induction l with
  | nil => intro acc h; exact h
  | cons u us ih =>
    intro acc h
    exact ih (insertSortedUnique u acc) (chain'_insertSortedUnique h)

theorem mem_foldl_insert {x : String} (l : List String) : ∀ acc : List String,
    x ∈ l.foldl (fun a u => insertSortedUnique u a) acc → x ∈ acc ∨ x ∈ l := by
  induction l with
  | nil => intro acc h; exact Or.inl h
  | cons u us ih =>
    intro acc h
    rcases ih (insertSortedUnique u acc) h with h2 | h2
    · rcases mem_insertSortedUnique h2 with rfl | h3
      · exact Or.inr (by simp)
      · exact Or.inl h3
    · exact Or.inr (by simp [h2])

theorem anchorCandidate_props {b ip u : String} {a : Anchor}
    (h : anchorCandidate b ip a = some u) :
    (a.resolved.scheme = "http" ∨ a.resolved.scheme = "https") ∧
    a.resolved.netloc = b ∧
    u = a.resolved.scheme ++ "://" ++ a.resolved.netloc ++
      rstripSlashes a.resolved.path ∧
    rstripSlashes a.resolved.path ≠ rstripSlashes ip ∧
    rstripSlashes a.resolved.path ≠ rstripSlashes ip ++ "/" ∧
    pyStartsWith (rstripSlashes a.resolved.path) (rstripSlashes ip) = true := by
  unfold anchorCandidate at h
  split_ifs at h with h1 h2 h3 h4 h5 h6
  simp only [Option.some.injEq] at h
  simp only [Bool.not_eq_true', Bool.or_eq_false_iff, decide_eq_false_iff_not,
    Bool.or_eq_true, decide_eq_true_eq, not_or] at h3 h5 h6
  refine ⟨by tauto, not_not.mp h4, h.symm, h5.1, h5.2, ?_⟩
  simpa using h6

/-- The link discoverer returns a strictly ascending (hence duplicate-free)
sequence of normalized `scheme://host/path` URLs; every member comes from
some anchor of the page that survived all the filters: scheme `http` or
`https`, host equal to the base host, trimmed path different from the
trimmed index path (and from the index path with a restored slash) and
starting with the trimmed index path. -/
theorem c5_discovered_links (b ip : String) (anchors : List Anchor) (u : String)
    (hu : u ∈ discoverDetailPages b ip anchors) :
    (discoverDetailPages b ip anchors).Chain' (fun x y => pyStrLt x y = true) ∧
    (discoverDetailPages b ip anchors).Pairwise (fun x y => pyStrLt x y = true) ∧
    (discoverDetailPages b ip anchors).Nodup ∧
    ∃ a ∈ anchors, anchorCandidate b ip a = some u ∧
      (a.resolved.scheme = "http" ∨ a.resolved.scheme = "https") ∧
      a.resolved.netloc = b ∧
      u = a.resolved.scheme ++ "://" ++ a.resolved.netloc ++
        rstripSlashes a.resolved.path ∧
      rstripSlashes a.resolved.path ≠ rstripSlashes ip ∧
      rstripSlashes a.resolved.path ≠ rstripSlashes ip ++ "/" ∧
      pyStartsWith (rstripSlashes a.resolved.path) (rstripSlashes ip) = true := by
  have hchain : (discoverDetailPages b ip anchors).Chain'
      (fun x y => pyStrLt x y = true) :=
    chain'_foldl_insert _ [] (by simp)
  letI : IsTrans String (fun x y => pyStrLt x y = true) :=
    ⟨fun x y z h1 h2 => charListLt_trans h1 h2⟩
  have hpair : (discoverDetailPages b ip anchors).Pairwise
      (fun x y => pyStrLt x y = true) := List.chain'_iff_pairwise.mp hchain
  have hnodup : (discoverDetailPages b ip anchors).Nodup := by
    refine hpair.imp ?_
    intro x y hxy heq
    subst heq
    rw [show pyStrLt x x = charListLt x.data x.data from rfl,
      charListLt_irrefl] at hxy
    cases hxy
  refine ⟨hchain, hpair, hnodup, ?_⟩
  rcases mem_foldl_insert _ [] hu with h | h
  · cases h
  · rcases List.mem_filterMap.mp h with ⟨a, ha, hc⟩
    obtain ⟨hs, hn, hu2, hp1, hp2, hp3⟩ := anchorCandidate_props hc
    exact ⟨a, ha, hc, hs, hn, hu2, hp1, hp2, hp3⟩

/-- Witness for `c5_discovered_links` at a concrete page with one in-scope
anchor. -/
theorem c5_discovered_links_witness :
    "https://www.x.rs/mkb/a00" ∈ discoverDetailPages "www.x.rs" "/mkb"
      [⟨"/mkb/a00/", ⟨"https", "www.x.rs", "/mkb/a00/", "", ""⟩⟩] ∧
    (discoverDetailPages "www.x.rs" "/mkb"
      [⟨"/mkb/a00/", ⟨"https", "www.x.rs", "/mkb/a00/", "", ""⟩⟩]).Nodup := by
  have h := c5_discovered_links "www.x.rs" "/mkb"
    [⟨"/mkb/a00/", ⟨"https", "www.x.rs", "/mkb/a00/", "", ""⟩⟩]
    "https://www.x.rs/mkb/a00" (by decide)
  exact ⟨by decide, h.2.2.1⟩

/-! ## Fetch failures abort the run (C9) -/

theorem fetchAndParsePages_not_ok {fetch : String → Except String Page}
    {u : String} {e : String} :
    ∀ {us : List String}, u ∈ us → fetch u = .error e →
    ∀ ls, fetchAndParsePages fetch us ≠ .ok ls := by
  intro us
  induction us with
  | nil => intro hu; cases hu
  | cons v vs ih =>
    intro hu he ls hok
    rw [fetchAndParsePages] at hok
    cases hv : fetch v with
    | error e2 => rw [hv] at hok; cases hok
    | ok page =>
      rw [hv] at hok
      cases hr : fetchAndParsePages fetch vs with
      | error e2 => rw [hr] at hok; cases hok
      | ok tails =>
        rcases List.mem_cons.mp hu with rfl | hu2
        · rw [hv] at he; cases he
        · exact ih hu2 he tails hr

theorem fetchAndParsePages_error_at {fetch : String → Except String Page}
    {u e : String} {us2 : List String} :
    ∀ {us1 : List String}, (∀ v ∈ us1, ∃ q, fetch v = .ok q) →
    fetch u = .error e →
    fetchAndParsePages fetch (us1 ++ u :: us2) = .error e := by
  intro us1
  induction us1 with
  | nil =>
    intro _ he
    rw [List.nil_append, fetchAndParsePages, he]
  | cons v vs ih =>
    intro hok he
    obtain ⟨q, hq⟩ := hok v (by simp)
    rw [List.cons_append, fetchAndParsePages, hq,
      ih (fun w hw => hok w (by simp [hw])) he]

/-- A transport failure is fatal to the whole run: if fetching the index
page fails, the run fails with that error; if any discovered detail page's
fetch fails, the run cannot return an entry list; and when every detail
page before the failing one fetches fine, the run's result is exactly the
failing fetch's error (no retry, no partial output). -/
theorem c9_fetch_failure_fatal (indexUrl b ip : String)
    (fetch : String → Except String Page) :
    (∀ e, fetch indexUrl = .error e → scrape indexUrl b ip fetch = .error e) ∧
    (∀ p u e res, fetch indexUrl = .ok p →
      u ∈ discoverDetailPages b ip p.anchors → fetch u = .error e →
      scrape indexUrl b ip fetch ≠ .ok res) ∧
    (∀ p us1 u us2 e, fetch indexUrl = .ok p →
      discoverDetailPages b ip p.anchors = us1 ++ u :: us2 →
      (∀ v ∈ us1, ∃ q, fetch v = .ok q) → fetch u = .error e →
      scrape indexUrl b ip fetch = .error e) := by
  refine ⟨?_, ?_, ?_⟩
  · intro e he
    rw [scrape, he]
  · intro p u e res hp hu he hok
    rw [scrape, hp] at hok
    dsimp only at hok
    cases hr : fetchAndParsePages fetch (discoverDetailPages b ip p.anchors) with
    | error e2 => rw [hr] at hok; cases hok
    | ok tails => exact fetchAndParsePages_not_ok hu he tails hr
  · intro p us1 u us2 e hp hpages hok he
    rw [scrape, hp]
    dsimp only
    rw [hpages, fetchAndParsePages_error_at hok he]

/-- Witness for `c9_fetch_failure_fatal`: a fetcher that serves the index
page (holding one in-scope link) and fails on the detail page; the run
returns exactly that error. -/
theorem c9_fetch_failure_fatal_witness :
    scrape "http://h/mkb" "h" "/mkb"
      (fun url => if url = "http://h/mkb" then
        .ok ⟨[], [], [], [⟨"/mkb/a", ⟨"http", "h", "/mkb/a", "", ""⟩⟩]⟩
      else .error "boom") = .error "boom" := by
  exact (c9_fetch_failure_fatal "http://h/mkb" "h" "/mkb"
      (fun url => if url = "http://h/mkb" then
        .ok ⟨[], [], [], [⟨"/mkb/a", ⟨"http", "h", "/mkb/a", "", ""⟩⟩]⟩
      else .error "boom")).2.2
    ⟨[], [], [], [⟨"/mkb/a", ⟨"http", "h", "/mkb/a", "", ""⟩⟩]⟩
    [] "http://h/mkb/a" [] "boom" (by rw [if_pos rfl]) (by decide)
    (fun v hv => absurd hv (List.not_mem_nil v))
    (by rw [if_neg (by decide)])

/-! ## Lemmas about deduplication (C1) -/

theorem mem_firstSeenAux {x : String} : ∀ {l seen : List String},
    x ∈ firstSeenAux seen l ↔ x ∈ l ∧ x ∉ seen := by
  intro l
  induction l with
  | nil => intro seen; simp [firstSeenAux]
  | cons c rest ih =>
    intro seen
    by_cases hc : c ∈ seen
    · rw [firstSeenAux, if_pos hc, ih]
      constructor
      · rintro ⟨h1, h2⟩
        exact ⟨List.mem_cons.mpr (Or.inr h1), h2⟩
      · rintro ⟨h1, h2⟩
        rcases List.mem_cons.mp h1 with rfl | h3
        · exact absurd hc h2
        · exact ⟨h3, h2⟩
    · rw [firstSeenAux, if_neg hc]
      constructor
      · intro h
        rcases List.mem_cons.mp h with rfl | h2
        · exact ⟨List.mem_cons.mpr (Or.inl rfl), hc⟩
        · rw [ih] at h2
          exact ⟨List.mem_cons.mpr (Or.inr h2.1),
            fun hx => h2.2 (List.mem_cons.mpr (Or.inr hx))⟩
      · rintro ⟨h1, h2⟩
        by_cases hxc : x = c
        · subst hxc
          exact List.mem_cons.mpr (Or.inl rfl)
        · rcases List.mem_cons.mp h1 with rfl | h3
          · exact absurd rfl hxc
          · refine List.mem_cons.mpr (Or.inr ?_)
            rw [ih]
            exact ⟨h3, fun hx => (List.mem_cons.mp hx).elim hxc h2⟩

theorem nodup_firstSeenAux : ∀ {l seen : List String},
    (firstSeenAux seen l).Nodup := by
  intro l
  induction l with
  | nil => intro seen; simp [firstSeenAux]
  | cons c rest ih =>
    intro seen
    by_cases hc : c ∈ seen
    · rw [firstSeenAux, if_pos hc]; exact ih
    · rw [firstSeenAux, if_neg hc]
      refine List.nodup_cons.mpr ⟨?_, ih⟩
      intro hmem
      rw [mem_firstSeenAux] at hmem
      exact hmem.2 (List.mem_cons.mpr (Or.inl rfl))

theorem firstSeenAux_append (c : String) : ∀ (l seen : List String),
    firstSeenAux seen (l ++ [c]) =
      firstSeenAux seen l ++ (if c ∈ seen ∨ c ∈ l then [] else [c]) := by
  intro l
  induction l with
  | nil =>
    intro seen
    by_cases h : c ∈ seen
    · simp [firstSeenAux, h]
    · simp [firstSeenAux, h]
  | cons x xs ih =>
    intro seen
    simp only [List.cons_append]
    by_cases hx : x ∈ seen
    · rw [firstSeenAux, if_pos hx, firstSeenAux, if_pos hx, ih]
      have hiff : (c ∈ seen ∨ c ∈ xs) ↔ (c ∈ seen ∨ c ∈ x :: xs) := by
        simp only [List.mem_cons]
        constructor
        · rintro (h | h)
          · exact Or.inl h
          · exact Or.inr (Or.inr h)
        · rintro (h | h | h)
          · exact Or.inl h
          · exact Or.inl (h ▸ hx)
          · exact Or.inr h
      rw [if_congr hiff rfl rfl]
    · rw [firstSeenAux, if_neg hx, firstSeenAux, if_neg hx, ih, List.cons_append]
      have hiff : (c ∈ x :: seen ∨ c ∈ xs) ↔ (c ∈ seen ∨ c ∈ x :: xs) := by
        simp only [List.mem_cons]
        constructor
        · rintro ((h | h) | h)
          · exact Or.inr (Or.inl h)
          · exact Or.inl h
          · exact Or.inr (Or.inr h)
        · rintro (h | h | h)
          · exact Or.inl (Or.inr h)
          · exact Or.inl (Or.inl h)
          · exact Or.inr h
      rw [if_congr hiff rfl rfl]

theorem mem_firstSeen {x : String} {l : List String} :
    x ∈ firstSeen l ↔ x ∈ l := by
  unfold firstSeen
  rw [mem_firstSeenAux]
  simp

theorem nodup_firstSeen {l : List String} : (firstSeen l).Nodup :=
  nodup_firstSeenAux

theorem firstSeen_append (l : List String) (c : String) :
    firstSeen (l ++ [c]) = firstSeen l ++ (if c ∈ l then [] else [c]) := by
  unfold firstSeen
  rw [firstSeenAux_append]
  have hiff : (c ∈ ([] : List String) ∨ c ∈ l) ↔ c ∈ l := by simp
  rw [if_congr hiff rfl rfl]

theorem fieldFold_append (xs : List String) (x : String) :
    fieldFold (xs ++ [x]) = if x = "" then fieldFold xs else x := by
  unfold fieldFold
  rw [List.foldl_append]
  rfl

theorem fieldFold_singleton (x : String) : fieldFold [x] = x := by
  by_cases h : x = "" <;> simp [fieldFold, h]

theorem assocLookup_map_spec (g : String → MKBEntry) (cs : List String)
    (k : String) :
    assocLookup k (cs.map (fun c => (c, g c))) =
      if k ∈ cs then some (g k) else none := by
  induction cs with
  | nil => simp [assocLookup]
  | cons c cs ih =>
    simp only [List.map_cons, assocLookup]
    by_cases hc : c = k
    · subst hc
      simp
    · rw [if_neg hc, ih]
      have hiff : k ∈ cs ↔ k ∈ c :: cs := by
        simp only [List.mem_cons]
        constructor
        · exact Or.inr
        · rintro (rfl | h)
          · exact absurd rfl hc
          · exact h
      rw [if_congr hiff rfl rfl]

theorem assocUpdate_map_spec (g : String → MKBEntry) (v : MKBEntry)
    (cs : List String) (k : String) (hnd : cs.Nodup) (hk : k ∈ cs) :
    assocUpdate k v (cs.map (fun c => (c, g c))) =
      cs.map (fun c => (c, if c = k then v else g c)) := by
  induction cs with
  | nil => cases hk
  | cons c cs ih =>
    simp only [List.map_cons, assocUpdate]
    by_cases hc : c = k
    · subst hc
      rw [if_pos rfl, if_pos rfl]
      have hnotin : c ∉ cs := (List.nodup_cons.mp hnd).1
      congr 1
      apply List.map_congr_left
      intro x hx
      rw [if_neg (by intro hxc; exact hnotin (hxc ▸ hx))]
    · rw [if_neg hc, if_neg hc]
      have hk' : k ∈ cs := by
        rcases List.mem_cons.mp hk with rfl | h
        · exact absurd rfl hc
        · exact h
      rw [ih (List.nodup_cons.mp hnd).2 hk']

theorem filter_code_eq_nil {xs : List MKBEntry} {c : String}
    (h : c ∉ xs.map MKBEntry.code) :
    xs.filter (fun e => e.code = c) = [] := by
  refine List.filter_eq_nil_iff.mpr ?_
  intro a ha
  simp only [decide_eq_true_eq]
  intro hac
  exact h (List.mem_map.mpr ⟨a, ha, hac⟩)

theorem expectedRecord_append_ne {xs : List MKBEntry} {e : MKBEntry}
    {c : String} (hce : c ≠ e.code) :
    expectedRecord (xs ++ [e]) c = expectedRecord xs c := by
  have hne : ¬(e.code = c) := fun h => hce h.symm
  unfold expectedRecord
  rw [List.filter_append]
  have hfil : [e].filter (fun x => x.code = c) = [] := by
    simp [List.filter, hne]
  rw [hfil, List.append_nil]

theorem expectedRecord_append_eq (xs : List MKBEntry) (e : MKBEntry) :
    expectedRecord (xs ++ [e]) e.code =
      mergeEntry (expectedRecord xs e.code) e := by
  unfold expectedRecord mergeEntry
  rw [List.filter_append]
  have hfil : [e].filter (fun x => x.code = e.code) = [e] := by
    simp [List.filter]
  rw [hfil, List.map_append, List.map_append, List.map_singleton,
    List.map_singleton, fieldFold_append, fieldFold_append]

theorem dedup_foldl_spec (l : List MKBEntry) :
    l.foldl dedupStep [] =
      (firstSeen (l.map MKBEntry.code)).map (fun c => (c, expectedRecord l c)) := by
  induction l using List.reverseRecOn with
  | nil => rfl
  | append_singleton xs e ih =>
    rw [List.foldl_append, List.foldl_cons, List.foldl_nil, ih, dedupStep,
      assocLookup_map_spec]
    by_cases hin : e.code ∈ firstSeen (xs.map MKBEntry.code)
    · rw [if_pos hin]
      dsimp only
      rw [assocUpdate_map_spec _ _ _ _ nodup_firstSeen hin]
      have hin' : e.code ∈ xs.map MKBEntry.code := mem_firstSeen.mp hin
      rw [List.map_append, List.map_singleton, firstSeen_append, if_pos hin',
        List.append_nil]
      apply List.map_congr_left
      intro c hc
      by_cases hce : c = e.code
      · subst hce
        rw [if_pos rfl, expectedRecord_append_eq]
      · rw [if_neg hce, expectedRecord_append_ne hce]
    · rw [if_neg hin]
      dsimp only
      have hnin : e.code ∉ xs.map MKBEntry.code :=
        fun hx => hin (mem_firstSeen.mpr hx)
      rw [List.map_append, List.map_singleton, firstSeen_append, if_neg hnin,
        List.map_append]
      congr 1
      · apply List.map_congr_left
        intro c hc
        have hce : c ≠ e.code := by
          intro h
          exact hin (h ▸ hc)
        rw [expectedRecord_append_ne hce]
      · rw [List.map_singleton]
        have hrec : expectedRecord (xs ++ [e]) e.code = e := by
          unfold expectedRecord
          rw [List.filter_append, filter_code_eq_nil hnin, List.nil_append]
          have hfil : [e].filter (fun x => x.code = e.code) = [e] := by
            simp [List.filter]
          rw [hfil, List.map_singleton, List.map_singleton,
            fieldFold_singleton, fieldFold_singleton]
        rw [hrec]

/-- Counterexample to the claim that a later occurrence never overwrites a
non-empty first-seen field: with two non-empty primary descriptions for the
same code, `_deduplicate` keeps the later one. -/
theorem c1_overwrite_counterexample :
    deduplicate [⟨"A00", "Kolera", ""⟩, ⟨"A00", "Holera", ""⟩] =
      [⟨"A00", "Holera", ""⟩] ∧
    MKBEntry.mk "A00" "Holera" "" ≠ ⟨"A00", "Kolera", ""⟩ := by
  exact ⟨by decide, by decide⟩

/-- The actual merge policy of `_deduplicate`: the output has one record per
code, in first-seen order, and each description field holds the last
non-empty value that any occurrence of the code supplied (empty when all
occurrences left it empty) — so a later non-empty value does overwrite an
earlier one, while empty later values leave the field unchanged.  The
specification's blank-filling example behaves as stated. -/
theorem c1_dedup_last_nonempty_wins (l : List MKBEntry) :
    deduplicate l = (firstSeen (l.map MKBEntry.code)).map (expectedRecord l) ∧
    deduplicate [⟨"A00", "Kolera", ""⟩, ⟨"A00", "", "Cholera"⟩] =
      [⟨"A00", "Kolera", "Cholera"⟩] := by
  refine ⟨?_, by decide⟩
  unfold deduplicate
  rw [dedup_foldl_spec, List.map_map]
  rfl

end MkbScrape
